import Mathlib

set_option linter.unusedSectionVars false

/-!
Verification of the `gap_buffer` data structure (file `gap_buffer.hpp`).

The buffer owns a backing store `_buf` (a `std::vector<T>`, modelled as a
`List`) and a gap `_gap`, a subrange of `_buf` delimited by two iterators.
We model the gap by the pair of indices `(gb, ge)` that the private helper
`gap_id()` computes (`gb = _gap.begin() - _buf.begin()`,
`ge = _gap.end() - _buf.begin()`).

`int64_t` quantities are modelled as `Int` where their sign matters (the
`count` argument of `remove`, the argument of `enlarge_by_at_least`) and as
`Nat` where the code asserts or assumes non-negativity (indices, cursor
shifts).  Iterator arithmetic that would move an iterator before
`_buf.begin()` is undefined behaviour in the C++ source; the model uses
truncated `Nat` subtraction there.  `std::vector<T>::resize` value
initialises the new elements; the model appends `default : α`, hence the
`Inhabited α` assumption on the operations that may resize.
-/

namespace Reffub

/-- Model of `gap_buffer<T>`: backing store `_buf` together with the index
pair `(gb, ge)` describing the gap subrange `_gap`. -/
structure GapBuffer (α : Type) where
  buf : List α
  gb : Nat
  ge : Nat
  deriving DecidableEq, Repr

namespace GapBuffer

variable {α : Type} [Inhabited α]

/-- Model of `std::ranges::copy(src, l.begin() + pos)` (and of
`std::ranges::copy_backward` ending at `pos + src.length`): overwrite the
elements of `l` at positions `[pos, pos + src.length)` with `src`.  In every
use below the written range lies inside `l`, so the length is preserved. -/
def listWrite (l : List α) (pos : Nat) (src : List α) : List α :=
  l.take pos ++ src ++ l.drop (pos + src.length)

/-- Model of the default constructor `gap_buffer()`: empty backing store,
gap equal to the whole (empty) store. -/
def init (α : Type) : GapBuffer α := ⟨[], 0, 0⟩

/-- Model of the private helper `buf_size()`. -/
def buf_size (b : GapBuffer α) : Nat := b.buf.length

/-- Model of the private helper `gap_size()` (`_gap.size()`). -/
def gap_size (b : GapBuffer α) : Nat := b.ge - b.gb

/-- Model of `size()`: `_buf.size() - _gap.size()`. -/
def size (b : GapBuffer α) : Nat := b.buf.length - (b.ge - b.gb)

/-- Model of `empty()`: `size() == 0`. -/
def empty (b : GapBuffer α) : Bool := size b == 0

/-- Model of `view()`: the logical content, the concatenation of
`_buf[0, gb)` and `_buf[ge, _buf.size())`. -/
def view (b : GapBuffer α) : List α := b.buf.take b.gb ++ b.buf.drop b.ge

/-- Model of `front()` as written in the source: if the gap is empty or does
not begin at the start of the backing store, return `_buf.front()`;
otherwise return `*(_gap.end() + 1)`, i.e. the element at index `ge + 1`. -/
def front (b : GapBuffer α) : α :=
  if b.gb = b.ge ∨ b.gb ≠ 0 then b.buf.headI
  else b.buf.getD (b.ge + 1) default

/-- Model of `back()`: if the gap is empty or does not end at the end of the
backing store, return `_buf.back()`; otherwise return `*(_gap.begin() - 1)`,
the element at index `gb - 1`. -/
def back (b : GapBuffer α) : α :=
  if b.gb = b.ge ∨ b.ge ≠ b.buf.length then b.buf.getLastD default
  else b.buf.getD (b.gb - 1) default

/-- Model of `enlarge_by_at_least(i)`: a no-op when `i <= 0`; otherwise the
store is resized to `2 * max(i, old_buf_size)`, the gap keeps its begin
index, its end index becomes `new_size - (old_buf_size - ge)`, and
`copy_backward` moves the data that was right of the gap to the tail of the
resized store. -/
def enlarge_by_at_least (b : GapBuffer α) (i : Int) : GapBuffer α :=
  if i ≤ 0 then b
  else
    let old := b.buf.length
    let newSize := (2 * max i (old : Int)).toNat
    let newGe := newSize - (old - b.ge)
    let resized := b.buf ++ List.replicate (newSize - old) default
    ⟨ listWrite resized newGe (b.buf.drop b.ge), b.gb, newGe⟩

/-- Model of `move_cursor_right(count)` (`count >= 0` is assumed by the
source): after a possible enlargement, `copy` moves the `count` elements in
`[_gap.end(), ge + count)` to position `gb`, and the gap becomes
`(gb + count, ge + count)`. -/
def move_cursor_right (b : GapBuffer α) (count : Nat) : GapBuffer α :=
  let gb := b.gb
  let ge := b.ge
  let b1 := enlarge_by_at_least b ((ge + count : Int) - b.buf.length)
  let src := (b1.buf.drop b1.ge).take (ge + count - b1.ge)
  ⟨ listWrite b1.buf gb src, gb + count, ge + count⟩

/-- Model of `move_cursor_left(count)` (`count >= 0` is assumed by the
source): after a possible enlargement, `copy_backward` moves the elements in
`[gb - count, _gap.begin())` so that they end at position `ge`, and the gap
becomes `(gb - count, ge - count)`. -/
def move_cursor_left (b : GapBuffer α) (count : Nat) : GapBuffer α :=
  let gb := b.gb
  let ge := b.ge
  let b1 := enlarge_by_at_least b ((count : Int) - gb)
  let src := (b1.buf.drop (gb - count)).take (b1.gb - (gb - count))
  ⟨ listWrite b1.buf (ge - src.length) src, gb - count, ge - count⟩

/-- Model of `move_cursor_to(index)`: move the cursor (the gap begin) right
or left so that it lands on `index`. -/
def move_cursor_to (b : GapBuffer α) (index : Nat) : GapBuffer α :=
  if index = b.gb then b
  else if b.gb < index then move_cursor_right b (index - b.gb)
  else move_cursor_left b (b.gb - index)

/-- Model of `insert(index, data)` (precondition `0 <= index <= size()`):
enlarge by at least `data.size()`, move the cursor to `index`, copy `data`
at the gap begin and shrink the gap from its begin by `data.size()`. -/
def insert (b : GapBuffer α) (index : Nat) (data : List α) : GapBuffer α :=
  let b1 := enlarge_by_at_least b (data.length : Int)
  let b2 := move_cursor_to b1 index
  ⟨ listWrite b2.buf b2.gb data, b2.gb + data.length, b2.ge⟩

/-- Model of the cursor form `insert(data)`: insert at `gap_id().first`. -/
def insert_at_cursor (b : GapBuffer α) (data : List α) : GapBuffer α :=
  insert b b.gb data

/-- Model of `push_front(data)`: `insert(0, data)`. -/
def push_front (b : GapBuffer α) (data : List α) : GapBuffer α :=
  insert b 0 data

/-- Model of `push_back(data)`: `insert(size(), data)`. -/
def push_back (b : GapBuffer α) (data : List α) : GapBuffer α :=
  insert b (size b) data

/-- Model of `remove(index, count)`: for `count >= 0` the count is clamped
to `min(count, size() - index)`, the cursor moves to `index + count` and the
gap begin retreats by the clamped count (`_gap.advance(-count)`); for
`count < 0` the magnitude is clamped to `min(-count, index)`, the cursor
moves to `index` and the gap begin retreats by the clamped magnitude. -/
def remove (b : GapBuffer α) (index : Nat) (count : Int) : GapBuffer α :=
  if 0 ≤ count then
    let c := min count.toNat (size b - index)
    let b1 := move_cursor_to b (index + c)
    ⟨b1.buf, b1.gb - c, b1.ge⟩
  else
    let c := min (-count).toNat index
    let b1 := move_cursor_to b index
    ⟨b1.buf, b1.gb - c, b1.ge⟩

/-- Model of `remove_prefix(count)`: `remove(0, count)`. -/
def removePrefix (b : GapBuffer α) (count : Int) : GapBuffer α :=
  remove b 0 count

/-- Model of `remove_suffix(count)`: `remove(size(), -count)`. -/
def removeSuffix (b : GapBuffer α) (count : Int) : GapBuffer α :=
  remove b (size b) (-count)

/-- Model of `clear()`: `_buf.clear()` and the gap reset to the whole
(empty) store. -/
def clear (_b : GapBuffer α) : GapBuffer α := ⟨[], 0, 0⟩

/-- Gap well-formedness, the invariant stated in the specification:
`0 <= gap_begin <= gap_end <= backing_store.length`. -/
def Wf (b : GapBuffer α) : Prop := b.gb ≤ b.ge ∧ b.ge ≤ b.buf.length

instance (b : GapBuffer α) : Decidable (Wf b) := by
  unfold Wf; infer_instance

/-! Basic lemmas about `listWrite`, the model of in-place range copies. -/

theorem length_listWrite (l src : List α) (pos : Nat)
    (h : pos + src.length ≤ l.length) :
    (listWrite l pos src).length = l.length := by
  simp only [listWrite, List.length_append, List.length_take, List.length_drop]
  omega

theorem take_listWrite (l src : List α) (pos : Nat) (hp : pos ≤ l.length) :
    (listWrite l pos src).take (pos + src.length) = l.take pos ++ src := by
  have hlen : (l.take pos ++ src).length = pos + src.length := by
    simp [List.length_take]; omega
  rw [listWrite, List.take_left' hlen]

theorem take_listWrite_le (l src : List α) (pos n : Nat)
    (hp : pos ≤ l.length) (hn : n ≤ pos) :
    (listWrite l pos src).take n = l.take n := by
  have h1 : (l.take pos ++ src).length = pos + src.length := by
    simp [List.length_take]; omega
  rw [listWrite, List.take_append_eq_append_take, h1,
    List.take_append_eq_append_take]
  have h2 : n - (pos + src.length) = 0 := by omega
  have h3 : n - (l.take pos).length = 0 := by
    simp [List.length_take]; omega
  rw [h2, h3]
  simp [List.take_take, Nat.min_eq_left hn]

theorem drop_listWrite (l src : List α) (pos k : Nat) (hp : pos ≤ l.length) :
    (listWrite l pos src).drop (pos + src.length + k) =
      l.drop (pos + src.length + k) := by
  have hlen : (l.take pos ++ src).length = pos + src.length := by
    simp [List.length_take]; omega
  rw [listWrite, List.drop_append_eq_append_drop, hlen]
  have h1 : pos + src.length + k - (pos + src.length) = k := by omega
  have h2 : (l.take pos ++ src).drop (pos + src.length + k) = [] :=
    List.drop_of_length_le (by rw [hlen]; omega)
  rw [h1, h2, List.nil_append, List.drop_drop]

theorem drop_listWrite_pos (l src : List α) (pos : Nat) (hp : pos ≤ l.length) :
    (listWrite l pos src).drop pos = src ++ l.drop (pos + src.length) := by
  have hlen : (l.take pos).length = pos := by simp [List.length_take]; omega
  rw [listWrite, List.append_assoc, List.drop_left' hlen]

/-! Lemmas relating the logical content `view` to the raw fields. -/

theorem length_view (b : GapBuffer α) (hwf : Wf b) :
    (view b).length = size b := by
  obtain ⟨h1, h2⟩ := hwf
  simp only [view, size, List.length_append, List.length_take,
    List.length_drop]
  omega

theorem take_view (b : GapBuffer α) (hwf : Wf b) :
    (view b).take b.gb = b.buf.take b.gb := by
  obtain ⟨h1, h2⟩ := hwf
  have hlen : (b.buf.take b.gb).length = b.gb := by
    simp [List.length_take]; omega
  rw [view, List.take_append_eq_append_take, hlen, Nat.sub_self,
    List.take_zero, List.append_nil, List.take_take, Nat.min_self]

theorem drop_view (b : GapBuffer α) (hwf : Wf b) :
    (view b).drop b.gb = b.buf.drop b.ge := by
  obtain ⟨h1, h2⟩ := hwf
  have hlen : (b.buf.take b.gb).length = b.gb := by
    simp [List.length_take]; omega
  rw [view, List.drop_left' hlen]

/-! Specification of `enlarge_by_at_least`. -/

theorem enlarge_by_at_least_nonpos (b : GapBuffer α) (i : Int) (h : i ≤ 0) :
    enlarge_by_at_least b i = b := by
  rw [enlarge_by_at_least, if_pos h]

theorem enlarge_by_at_least_spec (b : GapBuffer α) (i : Int)
    (hwf : Wf b) (hi : 0 < i) :
    (enlarge_by_at_least b i).gb = b.gb ∧
    (enlarge_by_at_least b i).buf.length =
      (2 * max i (b.buf.length : Int)).toNat ∧
    (enlarge_by_at_least b i).ge =
      (enlarge_by_at_least b i).buf.length - (b.buf.length - b.ge) ∧
    b.buf.length + i.toNat ≤ (enlarge_by_at_least b i).buf.length ∧
    (enlarge_by_at_least b i).buf.take b.gb = b.buf.take b.gb ∧
    (enlarge_by_at_least b i).buf.drop (enlarge_by_at_least b i).ge =
      b.buf.drop b.ge ∧
    Wf (enlarge_by_at_least b i) := by
  obtain ⟨h1, h2⟩ := hwf
  have he : enlarge_by_at_least b i =
      ⟨ listWrite
          (b.buf ++ List.replicate
            ((2 * max i (b.buf.length : Int)).toNat - b.buf.length) default)
          ((2 * max i (b.buf.length : Int)).toNat - (b.buf.length - b.ge))
          (b.buf.drop b.ge),
        b.gb,
        (2 * max i (b.buf.length : Int)).toNat - (b.buf.length - b.ge)⟩ := by
    rw [enlarge_by_at_least, if_neg (by omega)]
  set ns := (2 * max i (b.buf.length : Int)).toNat with hns
  have hbig : b.buf.length + i.toNat ≤ ns := by omega
  set nge := ns - (b.buf.length - b.ge) with hnge
  set resized :=
    b.buf ++ List.replicate (ns - b.buf.length) default with hresized
  have hrlen : resized.length = ns := by
    simp [hresized]; omega
  have hsrclen : (b.buf.drop b.ge).length = b.buf.length - b.ge := by
    simp
  have hlen : (listWrite resized nge (b.buf.drop b.ge)).length = ns := by
    rw [length_listWrite _ _ _ (by rw [hsrclen, hrlen]; omega), hrlen]
  refine ⟨by rw [he], by rw [he]; exact hlen, ?_, ?_, ?_, ?_, ?_⟩
  · rw [he]
    show nge = (listWrite resized nge (b.buf.drop b.ge)).length -
      (b.buf.length - b.ge)
    rw [hlen]
  · rw [he]
    show b.buf.length + i.toNat ≤ (listWrite resized nge (b.buf.drop b.ge)).length
    rw [hlen]
    exact hbig
  · rw [he]
    show (listWrite resized nge (b.buf.drop b.ge)).take b.gb = b.buf.take b.gb
    rw [take_listWrite_le resized _ nge b.gb (by rw [hrlen]; omega) (by omega)]
    rw [hresized, List.take_append_eq_append_take]
    have h3 : b.gb - b.buf.length = 0 := by omega
    rw [h3, List.take_zero, List.append_nil]
  · rw [he]
    show (listWrite resized nge (b.buf.drop b.ge)).drop nge =
      b.buf.drop b.ge
    rw [drop_listWrite_pos resized _ nge (by rw [hrlen]; omega)]
    have h3 : resized.drop (nge + (b.buf.drop b.ge).length) = [] :=
      List.drop_of_length_le (by rw [hrlen, hsrclen]; omega)
    rw [h3, List.append_nil]
  · rw [he]
    refine ⟨?_, ?_⟩
    · show b.gb ≤ nge
      omega
    · show nge ≤ (listWrite resized nge (b.buf.drop b.ge)).length
      rw [hlen]
      omega

/-! Specification of the cursor relocation helpers. -/

theorem move_cursor_right_spec (b : GapBuffer α) (count : Nat) (hwf : Wf b)
    (h : b.ge + count ≤ b.buf.length) :
    (move_cursor_right b count).gb = b.gb + count ∧
    (move_cursor_right b count).ge = b.ge + count ∧
    (move_cursor_right b count).buf.length = b.buf.length ∧
    view (move_cursor_right b count) = view b := by
  obtain ⟨h1, h2⟩ := hwf
  have hno : enlarge_by_at_least b ((b.ge : Int) + (count : Int) - (b.buf.length : Int)) = b :=
    enlarge_by_at_least_nonpos _ _ (by omega)
  have he : move_cursor_right b count =
      ⟨ listWrite b.buf b.gb ((b.buf.drop b.ge).take (b.ge + count - b.ge)),
        b.gb + count, b.ge + count⟩ := by
    simp only [move_cursor_right]
    rw [hno]
  have hcc : b.ge + count - b.ge = count := by omega
  rw [hcc] at he
  have hsrc : ((b.buf.drop b.ge).take count).length = count := by
    simp [List.length_take, List.length_drop]
    omega
  refine ⟨by rw [he], by rw [he], ?_, ?_⟩
  · rw [he]
    show (listWrite b.buf b.gb ((b.buf.drop b.ge).take count)).length =
      b.buf.length
    rw [length_listWrite _ _ _ (by rw [hsrc]; omega)]
  · rw [he]
    show (listWrite b.buf b.gb ((b.buf.drop b.ge).take count)).take (b.gb + count) ++
        (listWrite b.buf b.gb ((b.buf.drop b.ge).take count)).drop (b.ge + count) =
      view b
    have hs1 : b.gb + count = b.gb + ((b.buf.drop b.ge).take count).length := by
      rw [hsrc]
    have hs2 : b.ge + count =
        b.gb + ((b.buf.drop b.ge).take count).length + (b.ge - b.gb) := by
      rw [hsrc]; omega
    rw [hs1, take_listWrite b.buf _ b.gb (by omega), hs2,
      drop_listWrite b.buf _ b.gb (b.ge - b.gb) (by omega)]
    have hs3 : b.gb + ((b.buf.drop b.ge).take count).length + (b.ge - b.gb) =
        b.ge + count := by
      rw [hsrc]; omega
    rw [hs3, List.append_assoc, List.drop_take_append_drop, view]

theorem move_cursor_left_spec (b : GapBuffer α) (count : Nat) (hwf : Wf b)
    (h : count ≤ b.gb) :
    (move_cursor_left b count).gb = b.gb - count ∧
    (move_cursor_left b count).ge = b.ge - count ∧
    (move_cursor_left b count).buf.length = b.buf.length ∧
    view (move_cursor_left b count) = view b := by
  obtain ⟨h1, h2⟩ := hwf
  have hno : enlarge_by_at_least b ((count : Int) - (b.gb : Int)) = b :=
    enlarge_by_at_least_nonpos _ _ (by omega)
  have he : move_cursor_left b count =
      ⟨ listWrite b.buf
          (b.ge - ((b.buf.drop (b.gb - count)).take (b.gb - (b.gb - count))).length)
          ((b.buf.drop (b.gb - count)).take (b.gb - (b.gb - count))),
        b.gb - count, b.ge - count⟩ := by
    simp only [move_cursor_left]
    rw [hno]
  have hcc : b.gb - (b.gb - count) = count := by omega
  rw [hcc] at he
  have hsrc : ((b.buf.drop (b.gb - count)).take count).length = count := by
    simp [List.length_take, List.length_drop]
    omega
  rw [hsrc] at he
  refine ⟨by rw [he], by rw [he], ?_, ?_⟩
  · rw [he]
    show (listWrite b.buf (b.ge - count)
      ((b.buf.drop (b.gb - count)).take count)).length = b.buf.length
    rw [length_listWrite _ _ _ (by rw [hsrc]; omega)]
  · rw [he]
    show (listWrite b.buf (b.ge - count)
        ((b.buf.drop (b.gb - count)).take count)).take (b.gb - count) ++
      (listWrite b.buf (b.ge - count)
        ((b.buf.drop (b.gb - count)).take count)).drop (b.ge - count) =
      view b
    rw [take_listWrite_le b.buf ((b.buf.drop (b.gb - count)).take count)
        (b.ge - count) (b.gb - count) (by omega) (by omega),
      drop_listWrite_pos b.buf ((b.buf.drop (b.gb - count)).take count)
        (b.ge - count) (by omega)]
    have h4 : b.ge - count + ((b.buf.drop (b.gb - count)).take count).length =
        b.ge := by
      rw [hsrc]; omega
    rw [h4, ← List.append_assoc, ← List.take_add]
    have h5 : b.gb - count + count = b.gb := by omega
    rw [h5, view]

theorem move_cursor_to_spec (b : GapBuffer α) (i : Nat) (hwf : Wf b)
    (hi : i ≤ size b) :
    (move_cursor_to b i).gb = i ∧
    (move_cursor_to b i).ge = i + (b.ge - b.gb) ∧
    (move_cursor_to b i).buf.length = b.buf.length ∧
    view (move_cursor_to b i) = view b ∧
    Wf (move_cursor_to b i) := by
  obtain ⟨h1, h2⟩ := hwf
  have hsz : size b = b.buf.length - (b.ge - b.gb) := rfl
  rw [move_cursor_to]
  by_cases heq : i = b.gb
  · rw [if_pos heq]
    exact ⟨heq.symm, by omega, rfl, rfl, h1, h2⟩
  · rw [if_neg heq]
    by_cases hlt : b.gb < i
    · rw [if_pos hlt]
      obtain ⟨e1, e2, e3, e4⟩ :=
        move_cursor_right_spec b (i - b.gb) ⟨h1, h2⟩ (by omega)
      refine ⟨by rw [e1]; omega, by rw [e2]; omega, e3, e4, ?_, ?_⟩
      · rw [e1, e2]; omega
      · rw [e2, e3]; omega
    · rw [if_neg hlt]
      obtain ⟨e1, e2, e3, e4⟩ :=
        move_cursor_left_spec b (b.gb - i) ⟨h1, h2⟩ (by omega)
      refine ⟨by rw [e1]; omega, by rw [e2]; omega, e3, e4, ?_, ?_⟩
      · rw [e1, e2]; omega
      · rw [e2, e3]; omega

theorem take_view_le (b : GapBuffer α) (hwf : Wf b) (n : Nat) (hn : n ≤ b.gb) :
    (view b).take n = b.buf.take n := by
  obtain ⟨h1, h2⟩ := hwf
  rw [view, List.take_append_eq_append_take]
  have h0 : n - (b.buf.take b.gb).length = 0 := by
    simp [List.length_take]; omega
  rw [h0, List.take_zero, List.append_nil, List.take_take, Nat.min_eq_left hn]

/-! Specification of `insert`. -/

theorem insert_spec (b : GapBuffer α) (i : Nat) (data : List α)
    (hwf : Wf b) (hi : i ≤ size b) :
    view (insert b i data) = (view b).take i ++ data ++ (view b).drop i ∧
    size (insert b i data) = size b + data.length ∧
    (insert b i data).gb = i + data.length ∧
    Wf (insert b i data) := by
  obtain ⟨h1, h2⟩ := hwf
  have hsz : size b = b.buf.length - (b.ge - b.gb) := rfl
  set b1 := enlarge_by_at_least b (data.length : Int) with hb1def
  have key : b1.gb = b.gb ∧ view b1 = view b ∧ size b1 = size b ∧ Wf b1 ∧
      data.length + b1.gb ≤ b1.ge := by
    by_cases hd : (data.length : Int) ≤ 0
    · have hB : b1 = b := enlarge_by_at_least_nonpos b _ hd
      have hd0 : data.length = 0 := by omega
      rw [hB]
      exact ⟨rfl, rfl, rfl, ⟨h1, h2⟩, by omega⟩
    · obtain ⟨e1, e2, e3, e4, e5, e6, e7⟩ :=
        enlarge_by_at_least_spec b (data.length : Int) ⟨h1, h2⟩ (by omega)
      rw [← hb1def] at e1 e2 e3 e4 e5 e6 e7
      have hv : view b1 = view b := by
        rw [view, view, e1, e5, e6]
      have hs1 : size b1 = b1.buf.length - (b1.ge - b1.gb) := rfl
      exact ⟨e1, hv, by omega, e7, by omega⟩
  obtain ⟨k1, k2, k3, k4, k5⟩ := key
  set b2 := move_cursor_to b1 i with hb2def
  obtain ⟨f1, f2, f3, f4, f5⟩ := move_cursor_to_spec b1 i k4 (by omega)
  rw [← hb2def] at f1 f2 f3 f4 f5
  have he : insert b i data =
      ⟨ listWrite b2.buf b2.gb data, b2.gb + data.length, b2.ge⟩ := rfl
  have hd2 : i + data.length ≤ b2.ge := by omega
  have hi2 : i ≤ b2.buf.length := by
    have := f5.2
    omega
  have hlen : (listWrite b2.buf b2.gb data).length = b2.buf.length := by
    apply length_listWrite
    have := f5.2
    omega
  have t1 : (view b).take i = b2.buf.take i := by
    have t := take_view b2 f5
    rw [f1, f4, k2] at t
    exact t
  have t2 : (view b).drop i = b2.buf.drop b2.ge := by
    have t := drop_view b2 f5
    rw [f1, f4, k2] at t
    exact t
  refine ⟨?_, ?_, ?_, ?_⟩
  · rw [he]
    show (listWrite b2.buf b2.gb data).take (b2.gb + data.length) ++
        (listWrite b2.buf b2.gb data).drop b2.ge =
      (view b).take i ++ data ++ (view b).drop i
    rw [f1]
    have hg : b2.ge = i + data.length + (b2.ge - (i + data.length)) := by omega
    rw [hg, drop_listWrite b2.buf data i (b2.ge - (i + data.length)) hi2,
      ← hg, take_listWrite b2.buf data i hi2, t1, t2]
  · rw [he]
    show (listWrite b2.buf b2.gb data).length -
        (b2.ge - (b2.gb + data.length)) = size b + data.length
    rw [hlen]
    have hs1 : size b1 = b1.buf.length - (b1.ge - b1.gb) := rfl
    have k4a : b1.gb ≤ b1.ge := k4.1
    have k4b : b1.ge ≤ b1.buf.length := k4.2
    omega
  · rw [he, f1]
  · rw [he]
    refine ⟨?_, ?_⟩
    · show b2.gb + data.length ≤ b2.ge
      omega
    · show b2.ge ≤ (listWrite b2.buf b2.gb data).length
      rw [hlen]
      exact f5.2

/-! Specification of `remove`, for each sign of the count. -/

theorem remove_nonneg_spec (b : GapBuffer α) (i : Nat) (k : Int)
    (hwf : Wf b) (hi : i ≤ size b) (hk : 0 ≤ k) :
    view (remove b i k) =
      (view b).take i ++ (view b).drop (i + min k.toNat (size b - i)) ∧
    size (remove b i k) = size b - min k.toNat (size b - i) ∧
    (remove b i k).buf.length = b.buf.length ∧
    (remove b i k).gb = i ∧
    Wf (remove b i k) := by
  obtain ⟨h1, h2⟩ := hwf
  have hsz : size b = b.buf.length - (b.ge - b.gb) := rfl
  set c := min k.toNat (size b - i) with hc
  set b2 := move_cursor_to b (i + c) with hb2def
  have he : remove b i k = ⟨b2.buf, b2.gb - c, b2.ge⟩ := by
    rw [remove, if_pos hk]
  obtain ⟨f1, f2, f3, f4, f5⟩ :=
    move_cursor_to_spec b (i + c) ⟨h1, h2⟩ (by omega)
  rw [← hb2def] at f1 f2 f3 f4 f5
  have t1 : (view b).take i = b2.buf.take i := by
    have t := take_view_le b2 f5 i (by omega)
    rw [f4] at t
    exact t
  have t2 : (view b).drop (i + c) = b2.buf.drop b2.ge := by
    have t := drop_view b2 f5
    rw [f1, f4] at t
    exact t
  refine ⟨?_, ?_, ?_, ?_, ?_⟩
  · rw [he]
    show b2.buf.take (b2.gb - c) ++ b2.buf.drop b2.ge =
      (view b).take i ++ (view b).drop (i + c)
    have g1 : b2.gb - c = i := by omega
    rw [g1, t1, t2]
  · rw [he]
    show b2.buf.length - (b2.ge - (b2.gb - c)) = size b - c
    omega
  · rw [he]
    show b2.buf.length = b.buf.length
    exact f3
  · rw [he]
    show b2.gb - c = i
    omega
  · rw [he]
    have := f5.2
    refine ⟨?_, ?_⟩
    · show b2.gb - c ≤ b2.ge
      have := f5.1
      omega
    · show b2.ge ≤ b2.buf.length
      exact f5.2

theorem remove_neg_spec (b : GapBuffer α) (i : Nat) (k : Int)
    (hwf : Wf b) (hi : i ≤ size b) (hk : k < 0) :
    view (remove b i k) =
      (view b).take (i - min (-k).toNat i) ++ (view b).drop i ∧
    size (remove b i k) = size b - min (-k).toNat i ∧
    (remove b i k).buf.length = b.buf.length ∧
    (remove b i k).gb = i - min (-k).toNat i ∧
    Wf (remove b i k) := by
  obtain ⟨h1, h2⟩ := hwf
  have hsz : size b = b.buf.length - (b.ge - b.gb) := rfl
  set c := min (-k).toNat i with hc
  set b2 := move_cursor_to b i with hb2def
  have he : remove b i k = ⟨b2.buf, b2.gb - c, b2.ge⟩ := by
    rw [remove, if_neg (by omega)]
  obtain ⟨f1, f2, f3, f4, f5⟩ :=
    move_cursor_to_spec b i ⟨h1, h2⟩ hi
  rw [← hb2def] at f1 f2 f3 f4 f5
  have t1 : (view b).take (i - c) = b2.buf.take (i - c) := by
    have t := take_view_le b2 f5 (i - c) (by omega)
    rw [f4] at t
    exact t
  have t2 : (view b).drop i = b2.buf.drop b2.ge := by
    have t := drop_view b2 f5
    rw [f1, f4] at t
    exact t
  refine ⟨?_, ?_, ?_, ?_, ?_⟩
  · rw [he]
    show b2.buf.take (b2.gb - c) ++ b2.buf.drop b2.ge =
      (view b).take (i - c) ++ (view b).drop i
    have g1 : b2.gb - c = i - c := by omega
    rw [g1, t1, t2]
  · rw [he]
    show b2.buf.length - (b2.ge - (b2.gb - c)) = size b - c
    omega
  · rw [he]
    show b2.buf.length = b.buf.length
    exact f3
  · rw [he]
    show b2.gb - c = i - c
    omega
  · rw [he]
    refine ⟨?_, ?_⟩
    · show b2.gb - c ≤ b2.ge
      have := f5.1
      omega
    · show b2.ge ≤ b2.buf.length
      exact f5.2

/-! Well-formedness preservation and reachable states. -/

theorem wf_insert (b : GapBuffer α) (i : Nat) (data : List α)
    (hwf : Wf b) (hi : i ≤ size b) : Wf (insert b i data) :=
  (insert_spec b i data hwf hi).2.2.2

theorem wf_remove (b : GapBuffer α) (i : Nat) (k : Int)
    (hwf : Wf b) (hi : i ≤ size b) : Wf (remove b i k) := by
  by_cases hk : 0 ≤ k
  · exact (remove_nonneg_spec b i k hwf hi hk).2.2.2.2
  · exact (remove_neg_spec b i k hwf hi (by omega)).2.2.2.2

theorem gb_le_size (b : GapBuffer α) (hwf : Wf b) : b.gb ≤ size b := by
  obtain ⟨h1, h2⟩ := hwf
  have hsz : size b = b.buf.length - (b.ge - b.gb) := rfl
  omega

/-- States reachable from the default constructor through the public
operations, applied with indices within the asserted preconditions
(`0 <= index <= size()` for `insert` and `remove`; the convenience forms
`insert(data)`, `push_front`, `push_back`, `remove_prefix`, `remove_suffix`
and `clear` establish those bounds themselves). -/
inductive Reachable : GapBuffer α → Prop where
  | init_step : Reachable ( init α)
  | insert_step (b : GapBuffer α) (i : Nat) (data : List α) :
      Reachable b → i ≤ size b → Reachable (insert b i data)
  | insert_at_cursor_step (b : GapBuffer α) (data : List α) :
      Reachable b → Reachable (insert_at_cursor b data)
  | push_front_step (b : GapBuffer α) (data : List α) :
      Reachable b → Reachable (push_front b data)
  | push_back_step (b : GapBuffer α) (data : List α) :
      Reachable b → Reachable (push_back b data)
  | remove_step (b : GapBuffer α) (i : Nat) (k : Int) :
      Reachable b → i ≤ size b → Reachable (remove b i k)
  | remove_prefix_step (b : GapBuffer α) (k : Int) :
      Reachable b → Reachable ( removePrefix b k)
  | remove_suffix_step (b : GapBuffer α) (k : Int) :
      Reachable b → Reachable ( removeSuffix b k)
  | clear_step (b : GapBuffer α) : Reachable b → Reachable (clear b)

theorem reachable_wf (b : GapBuffer α) (h : Reachable b) : Wf b := by
  induction h with
  | init_step => exact ⟨Nat.le.refl, Nat.le.refl⟩
  | insert_step b i data hr hi ih => exact wf_insert b i data ih hi
  | insert_at_cursor_step b data hr ih =>
      exact wf_insert b b.gb data ih (gb_le_size b ih)
  | push_front_step b data hr ih =>
      exact wf_insert b 0 data ih (Nat.zero_le _)
  | push_back_step b data hr ih =>
      exact wf_insert b (size b) data ih Nat.le.refl
  | remove_step b i k hr hi ih => exact wf_remove b i k ih hi
  | remove_prefix_step b k hr ih =>
      exact wf_remove b 0 k ih (Nat.zero_le _)
  | remove_suffix_step b k hr ih =>
      exact wf_remove b (size b) (-k) ih Nat.le.refl
  | clear_step b hr ih => exact ⟨Nat.le.refl, Nat.le.refl⟩

/-! Claim theorems. -/

/-- C1: for every well-formed gap buffer with logical content `C` of size
`n`, every index `0 ≤ i ≤ n` and every finite `data`, after
`insert(i, data)` the logical content equals `C[0:i] ++ data ++ C[i:n]` and
`size()` returns `n + |data|`; the full content equation shows that no other
logical element moves. -/
theorem insert_content_law (b : GapBuffer α) (i : Nat) (data : List α)
    (hwf : Wf b) (hi : i ≤ size b) :
    view (insert b i data) = (view b).take i ++ data ++ (view b).drop i ∧
    size (insert b i data) = size b + data.length :=
  ⟨(insert_spec b i data hwf hi).1, (insert_spec b i data hwf hi).2.1⟩

/-- Witness for C1 at the concrete buffer with content `[a, b, c]`. -/
theorem insert_content_law_witness :
    view (insert (push_back ( init Char) ['a', 'b', 'c']) 1 ['x', 'y']) =
      (view (push_back ( init Char) ['a', 'b', 'c'])).take 1 ++ ['x', 'y'] ++
        (view (push_back ( init Char) ['a', 'b', 'c'])).drop 1 ∧
    size (insert (push_back ( init Char) ['a', 'b', 'c']) 1 ['x', 'y']) =
      size (push_back ( init Char) ['a', 'b', 'c']) +
        (['x', 'y'] : List Char).length :=
  insert_content_law (push_back ( init Char) ['a', 'b', 'c']) 1 ['x', 'y']
    (by decide) (by decide)

/-- C2: for every well-formed gap buffer with content `C` of size `n`,
index `0 ≤ i ≤ n` and count `k ≥ 0`, `remove(i, k)` clamps the count to
`min(k, n - i)` and leaves content `C[0:i] ++ C[i+k':n]`, so an over-length
count removes only up to the end of the content. -/
theorem remove_nonneg_content_law (b : GapBuffer α) (i : Nat) (k : Int)
    (hwf : Wf b) (hi : i ≤ size b) (hk : 0 ≤ k) :
    view (remove b i k) =
      (view b).take i ++ (view b).drop (i + min k.toNat (size b - i)) ∧
    size (remove b i k) = size b - min k.toNat (size b - i) :=
  ⟨(remove_nonneg_spec b i k hwf hi hk).1,
    (remove_nonneg_spec b i k hwf hi hk).2.1⟩

/-- Witness for C2 with an over-length count 100 on content `[a, b, c]`. -/
theorem remove_nonneg_content_law_witness :
    view (remove (push_back ( init Char) ['a', 'b', 'c']) 1 100) =
      (view (push_back ( init Char) ['a', 'b', 'c'])).take 1 ++
        (view (push_back ( init Char) ['a', 'b', 'c'])).drop
          (1 + min (100 : Int).toNat
            (size (push_back ( init Char) ['a', 'b', 'c']) - 1)) ∧
    size (remove (push_back ( init Char) ['a', 'b', 'c']) 1 100) =
      size (push_back ( init Char) ['a', 'b', 'c']) -
        min (100 : Int).toNat
          (size (push_back ( init Char) ['a', 'b', 'c']) - 1) :=
  remove_nonneg_content_law (push_back ( init Char) ['a', 'b', 'c']) 1 100
    (by decide) (by decide) (by decide)

/-- C3: for every well-formed gap buffer with content `C` of size `n`,
index `0 ≤ i ≤ n` and count `k < 0`, `remove(i, k)` clamps the magnitude to
`min(|k|, i)` and deletes the run of that many elements ending at `i`,
leaving content `C[0 : i - k'] ++ C[i : n]`. -/
theorem remove_neg_content_law (b : GapBuffer α) (i : Nat) (k : Int)
    (hwf : Wf b) (hi : i ≤ size b) (hk : k < 0) :
    view (remove b i k) =
      (view b).take (i - min (-k).toNat i) ++ (view b).drop i ∧
    size (remove b i k) = size b - min (-k).toNat i :=
  ⟨(remove_neg_spec b i k hwf hi hk).1, (remove_neg_spec b i k hwf hi hk).2.1⟩

/-- Witness for C3: removing 2 elements leftward of index 3 in `[a..e]`,
and the clamp at the front for magnitude 9 at index 1. -/
theorem remove_neg_content_law_witness :
    (view (remove (push_back ( init Char) ['a', 'b', 'c', 'd', 'e']) 3 (-2)) =
      (view (push_back ( init Char) ['a', 'b', 'c', 'd', 'e'])).take
        (3 - min (-(-2) : Int).toNat 3) ++
      (view (push_back ( init Char) ['a', 'b', 'c', 'd', 'e'])).drop 3 ∧
    size (remove (push_back ( init Char) ['a', 'b', 'c', 'd', 'e']) 3 (-2)) =
      size (push_back ( init Char) ['a', 'b', 'c', 'd', 'e']) -
        min (-(-2) : Int).toNat 3) :=
  remove_neg_content_law (push_back ( init Char) ['a', 'b', 'c', 'd', 'e'])
    3 (-2) (by decide) (by decide) (by decide)

/-- C4: evaluation of the modelled `front()` at a reachable state whose gap
begins at backing-store index 0.  The state is obtained from the empty
buffer by `push_back "abc"` then `remove(0, 1)`: its backing store is
`[a, b, c, A, b, c]` with gap `[0, 4)`, so the logical content is `[b, c]`
and its first element sits at index `gap_end = 4`.  The code returns the
element at `gap_end + 1`, namely `c`, not the first logical element `b`:
`front()` is off by one exactly in the gap-at-start case the claim
describes. -/
theorem front_gap_at_start_eval :
    view (remove (push_back ( init Char) ['a', 'b', 'c']) 0 1) = ['b', 'c'] ∧
    (remove (push_back ( init Char) ['a', 'b', 'c']) 0 1).gb = 0 ∧
    (remove (push_back ( init Char) ['a', 'b', 'c']) 0 1).ge = 4 ∧
    front (remove (push_back ( init Char) ['a', 'b', 'c']) 0 1) = 'c' ∧
    (view (remove (push_back ( init Char) ['a', 'b', 'c']) 0 1)).headI = 'b' := by
  decide

/-- C5: for every well-formed buffer, `enlarge_by_at_least(n)` is a no-op
when `n ≤ 0`; otherwise the store length becomes
`2 * max(n, old_capacity)`, the gap begin is preserved, the gap end becomes
`new_capacity - (old_capacity - old_gap_end)`, the elements right of the
old gap become the rightmost elements of the new store, and the logical
content is unchanged. -/
theorem enlarge_by_at_least_law (b : GapBuffer α) (n : Int) (hwf : Wf b) :
    (n ≤ 0 → enlarge_by_at_least b n = b) ∧
    (0 < n →
      (enlarge_by_at_least b n).buf.length =
        (2 * max n (b.buf.length : Int)).toNat ∧
      (enlarge_by_at_least b n).gb = b.gb ∧
      (enlarge_by_at_least b n).ge =
        (enlarge_by_at_least b n).buf.length - (b.buf.length - b.ge) ∧
      (enlarge_by_at_least b n).buf.drop (enlarge_by_at_least b n).ge =
        b.buf.drop b.ge ∧
      view (enlarge_by_at_least b n) = view b) := by
  refine ⟨fun h => enlarge_by_at_least_nonpos b n h, fun hn => ?_⟩
  obtain ⟨e1, e2, e3, e4, e5, e6, e7⟩ := enlarge_by_at_least_spec b n hwf hn
  refine ⟨e2, e1, e3, e6, ?_⟩
  rw [view, view, e1, e5, e6]

/-- Witness for C5 at the buffer with content `[a, b]` and `n = 3`. -/
theorem enlarge_by_at_least_law_witness :
    ((3 : Int) ≤ 0 →
      enlarge_by_at_least (push_back ( init Char) ['a', 'b']) 3 =
        push_back ( init Char) ['a', 'b']) ∧
    ((0 : Int) < 3 →
      (enlarge_by_at_least (push_back ( init Char) ['a', 'b']) 3).buf.length =
        (2 * max (3 : Int)
          ((push_back ( init Char) ['a', 'b']).buf.length : Int)).toNat ∧
      (enlarge_by_at_least (push_back ( init Char) ['a', 'b']) 3).gb =
        (push_back ( init Char) ['a', 'b']).gb ∧
      (enlarge_by_at_least (push_back ( init Char) ['a', 'b']) 3).ge =
        (enlarge_by_at_least (push_back ( init Char) ['a', 'b']) 3).buf.length -
          ((push_back ( init Char) ['a', 'b']).buf.length -
            (push_back ( init Char) ['a', 'b']).ge) ∧
      (enlarge_by_at_least (push_back ( init Char) ['a', 'b']) 3).buf.drop
          (enlarge_by_at_least (push_back ( init Char) ['a', 'b']) 3).ge =
        (push_back ( init Char) ['a', 'b']).buf.drop
          (push_back ( init Char) ['a', 'b']).ge ∧
      view (enlarge_by_at_least (push_back ( init Char) ['a', 'b']) 3) =
        view (push_back ( init Char) ['a', 'b'])) :=
  enlarge_by_at_least_law (push_back ( init Char) ['a', 'b']) 3 (by decide)

/-- C6: on every reachable buffer state (hence after every public
operation applied to a reachable state) the gap satisfies
`0 ≤ gap_begin ≤ gap_end ≤ backing-store length`, and `size()` equals the
store length minus the gap length, hence is non-negative as an `int64_t`
value. -/
theorem reachable_gap_invariant (b : GapBuffer α) (h : Reachable b) :
    b.gb ≤ b.ge ∧ b.ge ≤ b.buf.length ∧
    size b = b.buf.length - (b.ge - b.gb) ∧
    (size b : Int) = (b.buf.length : Int) - ((b.ge : Int) - (b.gb : Int)) := by
  obtain ⟨h1, h2⟩ := reachable_wf b h
  have hsz : size b = b.buf.length - (b.ge - b.gb) := rfl
  exact ⟨h1, h2, rfl, by omega⟩

/-- Witness for C6 at the reachable state `push_back "abc"; remove(0, 1)`. -/
theorem reachable_gap_invariant_witness :
    (remove (push_back ( init Char) ['a', 'b', 'c']) 0 1).gb ≤
      (remove (push_back ( init Char) ['a', 'b', 'c']) 0 1).ge ∧
    (remove (push_back ( init Char) ['a', 'b', 'c']) 0 1).ge ≤
      (remove (push_back ( init Char) ['a', 'b', 'c']) 0 1).buf.length ∧
    size (remove (push_back ( init Char) ['a', 'b', 'c']) 0 1) =
      (remove (push_back ( init Char) ['a', 'b', 'c']) 0 1).buf.length -
        ((remove (push_back ( init Char) ['a', 'b', 'c']) 0 1).ge -
          (remove (push_back ( init Char) ['a', 'b', 'c']) 0 1).gb) ∧
    (size (remove (push_back ( init Char) ['a', 'b', 'c']) 0 1) : Int) =
      ((remove (push_back ( init Char) ['a', 'b', 'c']) 0 1).buf.length : Int) -
        (((remove (push_back ( init Char) ['a', 'b', 'c']) 0 1).ge : Int) -
          ((remove (push_back ( init Char) ['a', 'b', 'c']) 0 1).gb : Int)) :=
  reachable_gap_invariant (remove (push_back ( init Char) ['a', 'b', 'c']) 0 1)
    (Reachable.remove_step _ 0 1
      (Reachable.push_back_step _ _ Reachable.init_step) (by decide))

/-- C7: `clear()` always yields `size() = 0` and `empty() = true`, for any
prior state, and clearing twice equals clearing once. -/
theorem clear_idempotent (b : GapBuffer α) :
    size (clear b) = 0 ∧ empty (clear b) = true ∧
    clear (clear b) = clear b :=
  ⟨rfl, rfl, rfl⟩

/-- C8 counterexample: `remove(0, 0)` on the reachable buffer obtained by
`push_back "ab"` relocates the gap (the cursor) to index 0 inside
`move_cursor_to`, so the resulting state differs from the original buffer;
`remove(i, 0)` is not a state-level no-op. -/
theorem remove_zero_not_identity :
    remove (push_back ( init Char) ['a', 'b']) 0 0 ≠
      push_back ( init Char) ['a', 'b'] := by
  decide

/-- C8 amended: for every well-formed buffer and index `0 ≤ i ≤ size()`,
`remove(i, 0)` preserves the logical content, the size and the
backing-store length; it is a no-op on the logical content only, since it
relocates the gap begin (the cursor) to `i`. -/
theorem remove_zero_preserves_content (b : GapBuffer α) (i : Nat)
    (hwf : Wf b) (hi : i ≤ size b) :
    view (remove b i 0) = view b ∧
    size (remove b i 0) = size b ∧
    (remove b i 0).buf.length = b.buf.length ∧
    (remove b i 0).gb = i := by
  obtain ⟨v, s, l, g, w⟩ := remove_nonneg_spec b i 0 hwf hi (le_refl 0)
  have hc : min (0 : Int).toNat (size b - i) = 0 := by omega
  rw [hc] at v s
  refine ⟨?_, by omega, l, g⟩
  rw [v, Nat.add_zero, List.take_append_drop]

/-- Witness for the amended C8 at content `[a, b]`, index 0. -/
theorem remove_zero_preserves_content_witness :
    view (remove (push_back ( init Char) ['a', 'b']) 0 0) =
      view (push_back ( init Char) ['a', 'b']) ∧
    size (remove (push_back ( init Char) ['a', 'b']) 0 0) =
      size (push_back ( init Char) ['a', 'b']) ∧
    (remove (push_back ( init Char) ['a', 'b']) 0 0).buf.length =
      (push_back ( init Char) ['a', 'b']).buf.length ∧
    (remove (push_back ( init Char) ['a', 'b']) 0 0).gb = 0 :=
  remove_zero_preserves_content (push_back ( init Char) ['a', 'b']) 0
    (by decide) (by decide)

/-- C9: after `insert(i, data)` on a well-formed buffer with `0 ≤ i ≤
size()`, the cursor (the gap begin) equals `i + |data|`, so the cursor-form
`insert(data2)` issued immediately afterwards is the same operation as an
indexed insert directly after the just-inserted run. -/
theorem insert_sets_cursor (b : GapBuffer α) (i : Nat) (data data2 : List α)
    (hwf : Wf b) (hi : i ≤ size b) :
    (insert b i data).gb = i + data.length ∧
    insert_at_cursor (insert b i data) data2 =
      insert (insert b i data) (i + data.length) data2 := by
  have hg := (insert_spec b i data hwf hi).2.2.1
  exact ⟨hg, by rw [insert_at_cursor, hg]⟩

/-- Witness for C9 at content `[a, b]`, inserting `[x]` at 1. -/
theorem insert_sets_cursor_witness :
    (insert (push_back ( init Char) ['a', 'b']) 1 ['x']).gb =
      1 + (['x'] : List Char).length ∧
    insert_at_cursor (insert (push_back ( init Char) ['a', 'b']) 1 ['x']) ['y'] =
      insert (insert (push_back ( init Char) ['a', 'b']) 1 ['x'])
        (1 + (['x'] : List Char).length) ['y'] :=
  insert_sets_cursor (push_back ( init Char) ['a', 'b']) 1 ['x'] ['y']
    (by decide) (by decide)

/-- C10: for every well-formed buffer and every index and count accepted by
`remove` (either sign convention), the backing-store length is unchanged:
deletion is gap growth and the internal cursor relocation never triggers
`enlarge_by_at_least`. -/
theorem remove_preserves_backing_length (b : GapBuffer α) (i : Nat) (k : Int)
    (hwf : Wf b) (hi : i ≤ size b) :
    (remove b i k).buf.length = b.buf.length := by
  by_cases hk : 0 ≤ k
  · exact (remove_nonneg_spec b i k hwf hi hk).2.2.1
  · exact (remove_neg_spec b i k hwf hi (by omega)).2.2.1

/-- Witness for C10 at content `[a, b, c]` with a negative count. -/
theorem remove_preserves_backing_length_witness :
    (remove (push_back ( init Char) ['a', 'b', 'c']) 2 (-1)).buf.length =
      (push_back ( init Char) ['a', 'b', 'c']).buf.length :=
  remove_preserves_backing_length (push_back ( init Char) ['a', 'b', 'c'])
    2 (-1) (by decide) (by decide)

end GapBuffer

end Reffub
